import Mathlib

/- Verification development for the sequence-to-sequence translation modules
   (encoder / attention / decoder-with-attention / Seq2Seq orchestrator).

   The orchestrator loop `Seq2Seq.forward` is embedded over lists with
   rational entries; the encoder and the decoder it drives are explicit
   function parameters of the model record (the loop treats them as black
   boxes), and the loop state additionally records the inputs and hidden
   states fed to the decoder at each call, so that properties about "what
   the decoder was fed" are directly statable.  The attention scorer and
   the softmax helper are embedded over real-valued function tensors. -/

/-- Dense rank-3 tensor with rational entries, indexed tensor[d0][d1][d2]. -/
abbrev Tensor3 := List (List (List ℚ))

/-- A `[d0, batch, dim]` hidden-state tensor, as passed between the
orchestrator and the decoder (`hidden`), list form. -/
abbrev Hid := Tensor3

/-- The zero tensor `torch.zeros(a, b, c)` in list form. -/
def zeros3 (a b c : ℕ) : Tensor3 :=
  List.replicate a (List.replicate b (List.replicate c (0 : ℚ)))

/-- Tail of the first-occurrence argmax scan: `i` is the index of the next
element to examine, `best`/`bestV` the best index and value so far. -/
def argmaxFrom : ℕ → ℕ → ℚ → List ℚ → ℕ
  | _, best, _, [] => best
  | i, best, bestV, x :: xs =>
    if bestV < x then argmaxFrom (i + 1) i x xs else argmaxFrom (i + 1) best bestV xs

/-- Index of the first maximal entry of a score row: `tensor.argmax(-1)`
applied to one row (torch returns the first maximal index). -/
def argmaxIdx : List ℚ → ℕ
  | [] => 0
  | x :: xs => argmaxFrom 1 0 x xs

/-- The Seq2Seq model as the orchestrator sees it: `decoder` is the
single-step decoder call `(input, hidden, encoder_outputs) -> (prediction, hidden)`,
`output_dim` is `self.decoder.output_dim`, and `encoder` maps the source
batch to `(enc_states, hidden, cell)`.  `E` is the type of the encoder
output states, passed through opaquely to the decoder. -/
structure Seq2SeqM (E : Type) where
  decoder : List ℕ → Hid → E → List (List ℚ) × Hid
  output_dim : ℕ
  encoder : List (List ℕ) → E × Hid × Hid

/-- Loop state of `Seq2Seq.forward`: the mutable locals `outputs`, `input`,
`hidden` and the remaining stream of `random.random()` draws, plus the
instrumentation traces `fedIn`/`fedHid` of the arguments given to each
decoder invocation. -/
structure StepSt (E : Type) where
  outputs : Tensor3
  input : List ℕ
  hidden : Hid
  draws : List ℚ
  fedIn : List (List ℕ)
  fedHid : List Hid

/-- One iteration `t` of the decoding loop body of `Seq2Seq.forward`:
invoke the decoder, write its prediction at position `t` of `outputs`,
draw the teacher-forcing coin `random.random() < teacher_forcing_ratio`,
and pick the next input (`trg[t]` if forced, else the argmax `top1`). -/
def stepOnce {E : Type} (m : Seq2SeqM E) (trg : List (List ℕ)) (tfr : ℚ)
    (enc : E) (t : ℕ) (s : StepSt E) : StepSt E :=
  let r := m.decoder s.input s.hidden enc
  let output := r.1
  let draw := s.draws.headD 0
  let top1 := output.map argmaxIdx
  { outputs := s.outputs.set t output
    input := if draw < tfr then trg.getD t [] else top1
    hidden := r.2
    draws := s.draws.tail
    fedIn := s.fedIn ++ [s.input]
    fedHid := s.fedHid ++ [s.hidden] }

/-- The decoding loop `for t in range(1, trg_len)` of `Seq2Seq.forward`,
with `fuel` remaining iterations starting at index `t`. -/
def runSteps {E : Type} (m : Seq2SeqM E) (trg : List (List ℕ)) (tfr : ℚ)
    (enc : E) : ℕ → ℕ → StepSt E → StepSt E
  | _, 0, s => s
  | t, fuel + 1, s => runSteps m trg tfr enc (t + 1) fuel (stepOnce m trg tfr enc t s)

/-- The initial decoder hidden state built in `Seq2Seq.forward`:
`hidden[-1].unsqueeze(0)`, i.e. the last slice of the encoder hidden stack
wrapped back into a leading dimension of size 1. -/
def initDecoderHidden (stack : Hid) : Hid :=
  [stack.getLastD []]

/-- `Seq2Seq.forward(src, trg, teacher_forcing_ratio)`:
allocate `outputs = zeros(trg_len, batch_size, trg_vocab_size)`, run the
encoder, take `hidden[-1].unsqueeze(0)` as the initial decoder hidden
state, start from `input = trg[0,:]`, and run the decoding loop for
`t = 1 .. trg_len - 1`.  The stream of `random.random()` draws is the
explicit argument `draws`; the full final loop state is returned. -/
def seq2seqForward {E : Type} (m : Seq2SeqM E) (src trg : List (List ℕ))
    (tfr : ℚ) (draws : List ℚ) : StepSt E :=
  let batch_size := (trg.headD []).length
  let trg_len := trg.length
  let trg_vocab_size := m.output_dim
  let er := m.encoder src
  runSteps m trg tfr er.1 1 (trg_len - 1)
    { outputs := zeros3 trg_len batch_size trg_vocab_size
      input := trg.headD []
      hidden := initDecoderHidden er.2.1
      draws := draws
      fedIn := []
      fedHid := [] }

/-- The value `Seq2Seq.forward` actually returns: the `outputs` tensor. -/
def generate {E : Type} (m : Seq2SeqM E) (src trg : List (List ℕ))
    (tfr : ℚ) (draws : List ℚ) : Tensor3 :=
  (seq2seqForward m src trg tfr draws).outputs

/-- A concrete model whose decoder returns a `[input.length, 3]` zero
score matrix, used to instantiate the shape theorem. -/
def mShape : Seq2SeqM Unit :=
  ⟨fun i h _ => (List.replicate i.length (List.replicate 3 (0 : ℚ)), h), 3,
    fun _ => ((), [[[0]]], [[[0]]])⟩

/-- Concrete model used to instantiate the position-zero theorem. -/
def mZero : Seq2SeqM Unit :=
  ⟨fun _ h _ => ([[(5 : ℚ), 7]], h), 2, fun _ => ((), [[[0]]], [[[0]]])⟩

/- Teacher forcing with ratio 1 (claim C3). -/

/-- The sequence of inputs the loop feeds to the decoder when every
teacher-forcing draw succeeds: the current input, then the ground-truth
rows `trg[t], trg[t+1], ...`. -/
def fedForced (trg : List (List ℕ)) : List ℕ → ℕ → ℕ → List (List ℕ)
  | _, _, 0 => []
  | input, t, fuel + 1 => input :: fedForced trg (trg.getD t []) (t + 1) fuel

/-- Concrete model for the C3 counterexample and witness: batch 1,
vocabulary size 2, decoder always scoring token 0 highest. -/
def mForce : Seq2SeqM Unit :=
  ⟨fun _ h _ => ([[(1 : ℚ), 0]], h), 2, fun _ => ((), [[[0]]], [[[0]]])⟩

/- Greedy self-feeding with ratio 0 (claim C4). -/

/-- The chain of (fed inputs, produced score matrices) when every step
feeds the argmax of the previous prediction (no teacher forcing). -/
def greedy {E : Type} (m : Seq2SeqM E) (enc : E) : ℕ → List ℕ → Hid →
    List (List ℕ) × List (List (List ℚ))
  | 0, _, _ => ([], [])
  | fuel + 1, input, hidden =>
    let r := m.decoder input hidden enc
    let rest := greedy m enc fuel (r.1.map argmaxIdx) r.2
    (input :: rest.1, r.1 :: rest.2)

/-- Writing a sequence of slices at consecutive positions, as the loop
does with `outputs[t] = output`. -/
def writeSeq : Tensor3 → ℕ → List (List (List ℚ)) → Tensor3
  | outputs, _, [] => outputs
  | outputs, t, o :: os => writeSeq (outputs.set t o) (t + 1) os

/-- Concrete model for the C4 witness: batch 1, vocabulary size 2, the
decoder always scoring token 1 highest. -/
def mGreedy : Seq2SeqM Unit :=
  ⟨fun _ h _ => ([[(0 : ℚ), 1]], h), 2, fun _ => ((), [[[0]]], [[[0]]])⟩

/- Initial decoder hidden state (claim C6). -/

/-- The initial decoder hidden state as the spec describes it: the
last-layer final hidden state covering, for a bidirectional encoder, both
directions of the last layer (the commented-out
`torch.cat((hidden[-2], hidden[-1]), dim=1).unsqueeze(0)` variant);
for a unidirectional encoder just `hidden[-1].unsqueeze(0)`. -/
def initDecoderHiddenSpec (bidirectional : Bool) (stack : Hid) : Hid :=
  if bidirectional then
    [List.zipWith (fun a b => a ++ b) (stack.getD (stack.length - 2) []) (stack.getLastD [])]
  else
    [stack.getLastD []]

/-- Concrete model with a bidirectional-shaped encoder hidden stack of two
slices (one layer, two directions): forward slice [[1]], backward [[2]]. -/
def mBidir : Seq2SeqM Unit :=
  ⟨fun _ h _ => ([[(0 : ℚ), 1]], h), 2, fun _ => ((), [[[1]], [[2]]], [[[0]], [[0]]])⟩

/- Construction-time dimension check (claim C8). -/

/-- Construction-time configuration stored by `Encoder.__init__`. -/
structure Encoder where
  input_dim : ℕ
  emb_dim : ℕ
  hid_dim : ℕ
  n_layers : ℕ
  dropout : ℚ
  bidirectional : Bool
deriving DecidableEq

/-- Construction-time configuration stored by
`DecoderWithAttention.__init__`. -/
structure DecoderWithAttention where
  output_dim : ℕ
  emb_dim : ℕ
  enc_hid_dim : ℕ
  dec_hid_dim : ℕ
  dropout : ℚ
  bidirectional : Bool
deriving DecidableEq

/-- `Seq2Seq.__init__(encoder, decoder, device)`: the dimension assertions
in the source are commented out, so construction always succeeds and just
stores the two submodules. -/
def Seq2Seq.init (encoder : Encoder) (decoder : DecoderWithAttention) :
    Except String (Encoder × DecoderWithAttention) :=
  Except.ok (encoder, decoder)

/-- The encoder hidden dimensionality the decoder must match: `hid_dim`,
doubled for a bidirectional encoder. -/
def effectiveEncHiddenDim (e : Encoder) : ℕ :=
  (if e.bidirectional then 2 else 1) * e.hid_dim

/-- Modelled from the spec: the construction-time assertion
`effectiveEncHiddenDim == decHiddenDim` that the spec says should be
enforced; in the source the corresponding assert statements exist only as
comments inside `Seq2Seq.__init__`. -/
def Seq2Seq.initChecked (encoder : Encoder) (decoder : DecoderWithAttention) :
    Except String (Encoder × DecoderWithAttention) :=
  if effectiveEncHiddenDim encoder = decoder.dec_hid_dim then
    Except.ok (encoder, decoder)
  else
    Except.error "Hidden dimensions of encoder and decoder must be equal!"

/-- A unidirectional encoder with hid_dim = 4. -/
def encBad : Encoder := ⟨10, 4, 4, 1, 0, false⟩

/-- A decoder with dec_hid_dim = 8, mismatching `encBad`. -/
def decBad : DecoderWithAttention := ⟨12, 4, 4, 8, 0, false⟩

/- The softmax helper and the attention scorer (claims C2 and C7),
embedded over real-valued function tensors indexed [src position][batch][feature]. -/

/-- Real-valued rank-3 tensor as an index function. -/
abbrev RTensor := ℕ → ℕ → ℕ → ℝ

/-- The module-level helper `softmax(x, temperature=10)`:
`e_x = exp(x / temperature); e_x / sum(e_x, dim=0)`, the dim-0 extent
being `srcLen`.  The temperature is a call-site default of 10, not a
construction-time option. -/
noncomputable def softmax (srcLen : ℕ) (x : RTensor) (temperature : ℝ := 10) : RTensor :=
  fun s b k =>
    Real.exp (x s b k / temperature) /
      Finset.sum (Finset.range srcLen) (fun s2 => Real.exp (x s2 b k / temperature))

/-- Construction-time state of `Attention.__init__(enc_hid_dim,
dec_hid_dim, bidirectional)`: the configuration plus the parameters of the
two linear layers `attn` (out features `enc_hid_dim`) and `v` (out
features 1).  No temperature is accepted at construction. -/
structure AttentionP where
  enc_hid_dim : ℕ
  dec_hid_dim : ℕ
  bidirectional : Bool
  attnW : ℕ → ℕ → ℝ
  attnB : ℕ → ℝ
  vW : ℕ → ℝ
  vB : ℝ

/-- The encoder-output feature width seen by the attention module:
`(1 + bidirectional) * enc_hid_dim`. -/
def encDirs (A : AttentionP) : ℕ :=
  (1 + if A.bidirectional then 1 else 0) * A.enc_hid_dim

/-- `torch.cat((encoder_outputs, hidden), dim=2)` after broadcasting the
decoder hidden state across source positions: encoder features first,
then the repeated hidden features. -/
noncomputable def conc (A : AttentionP) (hidden enc : RTensor) : RTensor :=
  fun s b i => if i < encDirs A then enc s b i else hidden 0 b (i - encDirs A)

/-- `energy = F.tanh(self.attn(conc))`: linear layer then tanh, one energy
vector of width `enc_hid_dim` per source position. -/
noncomputable def energy (A : AttentionP) (hidden enc : RTensor) : RTensor :=
  fun s b j =>
    Real.tanh
      (Finset.sum (Finset.range (encDirs A + A.dec_hid_dim))
          (fun i => A.attnW j i * conc A hidden enc s b i)
        + A.attnB j)

/-- `self.v(energy)`: projection of each energy vector to one scalar per
source position (the [srcLen, batch, 1] tensor fed to `softmax`). -/
noncomputable def vEnergy (A : AttentionP) (hidden enc : RTensor) : RTensor :=
  fun s b _ =>
    Finset.sum (Finset.range A.enc_hid_dim)
        (fun j => A.vW j * energy A hidden enc s b j)
      + A.vB

/-- `Attention.forward(hidden, encoder_outputs)`:
`a_t = softmax(self.v(energy))` — softmax invoked with its default
temperature. -/
noncomputable def Attention.forward (A : AttentionP) (srcLen : ℕ)
    (hidden enc : RTensor) : RTensor :=
  softmax srcLen (vEnergy A hidden enc)

/-- The attention forward pass as the spec describes it, with the
temperature a configurable value `T` supplied at construction. -/
noncomputable def Attention.forwardWithTemp (A : AttentionP) (srcLen : ℕ)
    (hidden enc : RTensor) (T : ℝ) : RTensor :=
  softmax srcLen (vEnergy A hidden enc) T

/-- A concrete attention configuration for the normalization witness. -/
def attnW1 : AttentionP := ⟨1, 1, false, fun _ _ => 0, fun _ => 0, fun _ => 0, 0⟩

/-- Concrete attention configuration for the temperature counterexample:
one encoder feature, no decoder features, identity-like weights. -/
def attnCex : AttentionP := ⟨1, 0, false, fun _ _ => 1, fun _ => 0, fun _ => 1, 0⟩

/-- Concrete encoder outputs for the counterexample: feature 0 at source
position 0, feature 1 elsewhere. -/
noncomputable def encCex : RTensor := fun s _ _ => if s = 0 then 0 else 1

/-- Concrete (all-zero) decoder hidden state for the counterexample. -/
def hidCex : RTensor := fun _ _ _ => 0

/- List helper lemmas (self-contained). -/

theorem headD_eq_getD_zero {α : Type} (l : List α) (d : α) :
    l.headD d = l.getD 0 d := by
  cases l <;> rfl

theorem getD_replicate_of_lt {α : Type} (x d : α) :
    ∀ (n i : ℕ), i < n → (List.replicate n x).getD i d = x := by
  intro n
  induction n with
  | zero => intro i hi; omega
  | succ n ih =>
    intro i hi
    cases i with
    | zero => rfl
    | succ i => exact ih i (by omega)

theorem getD_mem_of_lt {α : Type} (d : α) :
    ∀ (l : List α) (i : ℕ), i < l.length → l.getD i d ∈ l := by
  intro l
  induction l with
  | nil => intro i hi; simp at hi
  | cons a l ih =>
    intro i hi
    cases i with
    | zero => exact List.mem_cons_self a l
    | succ i => exact List.mem_cons_of_mem a (ih i (by simpa using hi))

theorem getD_set_ne {α : Type} (a d : α) :
    ∀ (l : List α) (i j : ℕ), i ≠ j → (l.set i a).getD j d = l.getD j d := by
  intro l
  induction l with
  | nil => intro i j _; simp [List.set]
  | cons b l ih =>
    intro i j hij
    cases i with
    | zero =>
      cases j with
      | zero => exact absurd rfl hij
      | succ j => rfl
    | succ i =>
      cases j with
      | zero => rfl
      | succ j => exact ih i j (by omega)

theorem getD_set_self {α : Type} (a d : α) :
    ∀ (l : List α) (i : ℕ), i < l.length → (l.set i a).getD i d = a := by
  intro l
  induction l with
  | nil => intro i hi; simp at hi
  | cons b l ih =>
    intro i hi
    cases i with
    | zero => rfl
    | succ i => exact ih i (by simpa using hi)

theorem mem_of_mem_tail' {α : Type} {x : α} :
    ∀ {l : List α}, x ∈ l.tail → x ∈ l := by
  intro l hx
  cases l with
  | nil => simp at hx
  | cons a l => exact List.mem_cons_of_mem a hx

/- Basic facts about the decoding loop. -/

theorem runSteps_zero {E : Type} (m : Seq2SeqM E) (trg : List (List ℕ)) (tfr : ℚ)
    (enc : E) (t : ℕ) (s : StepSt E) :
    runSteps m trg tfr enc t 0 s = s := rfl

theorem runSteps_succ {E : Type} (m : Seq2SeqM E) (trg : List (List ℕ)) (tfr : ℚ)
    (enc : E) (t fuel : ℕ) (s : StepSt E) :
    runSteps m trg tfr enc t (fuel + 1) s
      = runSteps m trg tfr enc (t + 1) fuel (stepOnce m trg tfr enc t s) := rfl

theorem stepOnce_outputs {E : Type} (m : Seq2SeqM E) (trg : List (List ℕ)) (tfr : ℚ)
    (enc : E) (t : ℕ) (s : StepSt E) :
    (stepOnce m trg tfr enc t s).outputs
      = s.outputs.set t (m.decoder s.input s.hidden enc).1 := rfl

theorem stepOnce_fedIn {E : Type} (m : Seq2SeqM E) (trg : List (List ℕ)) (tfr : ℚ)
    (enc : E) (t : ℕ) (s : StepSt E) :
    (stepOnce m trg tfr enc t s).fedIn = s.fedIn ++ [s.input] := rfl

theorem stepOnce_fedHid {E : Type} (m : Seq2SeqM E) (trg : List (List ℕ)) (tfr : ℚ)
    (enc : E) (t : ℕ) (s : StepSt E) :
    (stepOnce m trg tfr enc t s).fedHid = s.fedHid ++ [s.hidden] := rfl

/-- The loop never changes the length of the `outputs` tensor. -/
theorem runSteps_outputs_length {E : Type} (m : Seq2SeqM E) (trg : List (List ℕ))
    (tfr : ℚ) (enc : E) :
    ∀ (fuel t : ℕ) (s : StepSt E),
      (runSteps m trg tfr enc t fuel s).outputs.length = s.outputs.length := by
  intro fuel
  induction fuel with
  | zero => intro t s; rfl
  | succ fuel ih =>
    intro t s
    rw [runSteps_succ, ih]
    simp [stepOnce_outputs]

/-- Positions strictly below the loop counter are never written again. -/
theorem runSteps_outputs_stable {E : Type} (m : Seq2SeqM E) (trg : List (List ℕ))
    (tfr : ℚ) (enc : E) :
    ∀ (fuel t j : ℕ) (s : StepSt E), j < t →
      (runSteps m trg tfr enc t fuel s).outputs.getD j []
        = s.outputs.getD j [] := by
  intro fuel
  induction fuel with
  | zero => intro t j s _; rfl
  | succ fuel ih =>
    intro t j s hj
    rw [runSteps_succ, ih (t + 1) j _ (by omega), stepOnce_outputs]
    exact getD_set_ne _ _ _ _ _ (by omega)

/-- The decoder-argument traces only grow along the loop. -/
theorem runSteps_traces_grow {E : Type} (m : Seq2SeqM E) (trg : List (List ℕ))
    (tfr : ℚ) (enc : E) :
    ∀ (fuel t : ℕ) (s : StepSt E),
      ∃ r1 r2, (runSteps m trg tfr enc t fuel s).fedIn = s.fedIn ++ r1 ∧
        (runSteps m trg tfr enc t fuel s).fedHid = s.fedHid ++ r2 := by
  intro fuel
  induction fuel with
  | zero => intro t s; exact ⟨[], [], by rw [runSteps_zero]; simp, by rw [runSteps_zero]; simp⟩
  | succ fuel ih =>
    intro t s
    obtain ⟨r1, r2, h1, h2⟩ := ih (t + 1) (stepOnce m trg tfr enc t s)
    refine ⟨[s.input] ++ r1, [s.hidden] ++ r2, ?_, ?_⟩
    · rw [runSteps_succ, h1, stepOnce_fedIn, List.append_assoc]
    · rw [runSteps_succ, h2, stepOnce_fedHid, List.append_assoc]

theorem stepOnce_input {E : Type} (m : Seq2SeqM E) (trg : List (List ℕ)) (tfr : ℚ)
    (enc : E) (t : ℕ) (s : StepSt E) :
    (stepOnce m trg tfr enc t s).input
      = if s.draws.headD 0 < tfr then trg.getD t []
        else (m.decoder s.input s.hidden enc).1.map argmaxIdx := rfl

theorem stepOnce_hidden {E : Type} (m : Seq2SeqM E) (trg : List (List ℕ)) (tfr : ℚ)
    (enc : E) (t : ℕ) (s : StepSt E) :
    (stepOnce m trg tfr enc t s).hidden = (m.decoder s.input s.hidden enc).2 := rfl

theorem stepOnce_draws {E : Type} (m : Seq2SeqM E) (trg : List (List ℕ)) (tfr : ℚ)
    (enc : E) (t : ℕ) (s : StepSt E) :
    (stepOnce m trg tfr enc t s).draws = s.draws.tail := rfl

theorem mem_set_cases {α : Type} (a : α) :
    ∀ (l : List α) (i : ℕ) (x : α), x ∈ l.set i a → x ∈ l ∨ x = a := by
  intro l
  induction l with
  | nil => intro i x hx; simp [List.set] at hx
  | cons b l ih =>
    intro i x hx
    cases i with
    | zero =>
      rcases List.mem_cons.mp hx with h | h
      · right; exact h
      · left; exact List.mem_cons_of_mem b h
    | succ i =>
      rcases List.mem_cons.mp hx with h | h
      · left; exact h ▸ List.mem_cons_self b l
      · rcases ih i x h with h' | h'
        · left; exact List.mem_cons_of_mem b h'
        · right; exact h'

/-- If the loop runs at least once and the traces start empty, the first
recorded decoder arguments are the state's `input` and `hidden`. -/
theorem runSteps_first_call {E : Type} (m : Seq2SeqM E) (trg : List (List ℕ))
    (tfr : ℚ) (enc : E) (fuel t : ℕ) (s : StepSt E)
    (hfuel : 1 ≤ fuel) (hIn : s.fedIn = []) (hHid : s.fedHid = []) :
    (runSteps m trg tfr enc t fuel s).fedIn.getD 0 [] = s.input ∧
      (runSteps m trg tfr enc t fuel s).fedHid.getD 0 [] = s.hidden := by
  cases fuel with
  | zero => omega
  | succ fuel =>
    obtain ⟨r1, r2, h1, h2⟩ :=
      runSteps_traces_grow m trg tfr enc fuel (t + 1) (stepOnce m trg tfr enc t s)
    rw [runSteps_succ, h1, h2, stepOnce_fedIn, stepOnce_fedHid, hIn, hHid]
    simp

/-- Unfolding of `seq2seqForward` into the loop it runs. -/
theorem seq2seqForward_eq {E : Type} (m : Seq2SeqM E) (src trg : List (List ℕ))
    (tfr : ℚ) (draws : List ℚ) :
    seq2seqForward m src trg tfr draws
      = runSteps m trg tfr (m.encoder src).1 1 (trg.length - 1)
        { outputs := zeros3 trg.length (trg.headD []).length m.output_dim
          input := trg.headD []
          hidden := initDecoderHidden (m.encoder src).2.1
          draws := draws
          fedIn := []
          fedHid := [] } := rfl

/-- Well-shapedness of the outputs tensor rows is a loop invariant, given
the decoder contract `scores.shape == [input.length, output_dim]`. -/
theorem runSteps_shape {E : Type} (m : Seq2SeqM E) (trg : List (List ℕ)) (tfr : ℚ)
    (enc : E) (batch : ℕ)
    (hdec : ∀ (i : List ℕ) (h : Hid) (e : E), (m.decoder i h e).1.length = i.length ∧
      ∀ row ∈ (m.decoder i h e).1, row.length = m.output_dim)
    (hrows : ∀ r ∈ trg, r.length = batch) :
    ∀ (fuel t : ℕ) (s : StepSt E), t + fuel ≤ trg.length → s.input.length = batch →
      (∀ mat ∈ s.outputs, mat.length = batch ∧ ∀ row ∈ mat, row.length = m.output_dim) →
      (∀ mat ∈ (runSteps m trg tfr enc t fuel s).outputs,
        mat.length = batch ∧ ∀ row ∈ mat, row.length = m.output_dim) := by
  intro fuel
  induction fuel with
  | zero => intro t s _ _ hout; exact hout
  | succ fuel ih =>
    intro t s hle hin hout
    rw [runSteps_succ]
    refine ih (t + 1) _ (by omega) ?_ ?_
    · rw [stepOnce_input]
      by_cases hdraw : s.draws.headD 0 < tfr
      · rw [if_pos hdraw]
        exact hrows _ (getD_mem_of_lt _ trg t (by omega))
      · rw [if_neg hdraw, List.length_map, (hdec s.input s.hidden enc).1, hin]
    · intro mat hmat
      rw [stepOnce_outputs] at hmat
      rcases mem_set_cases _ _ _ _ hmat with h | h
      · exact hout mat h
      · subst h
        exact ⟨(hdec s.input s.hidden enc).1.trans hin, (hdec s.input s.hidden enc).2⟩

/-- C1: for every source sequence, every target sequence of shape
[trgLen, batch] (trgLen ≥ 1) and every teacher-forcing ratio, the value
returned by `generate` has shape exactly [trgLen, batch, outputVocabSize],
given the decoder contract that a single step on a batch of `input.length`
tokens yields scores of shape [input.length, output_dim]. -/
theorem generate_shape {E : Type} (m : Seq2SeqM E) (src trg : List (List ℕ))
    (tfr : ℚ) (draws : List ℚ) (batch : ℕ)
    (hne : 0 < trg.length)
    (hrows : ∀ r ∈ trg, r.length = batch)
    (hdec : ∀ (i : List ℕ) (h : Hid) (e : E), (m.decoder i h e).1.length = i.length ∧
      ∀ row ∈ (m.decoder i h e).1, row.length = m.output_dim) :
    (generate m src trg tfr draws).length = trg.length ∧
      ∀ mat ∈ generate m src trg tfr draws,
        mat.length = batch ∧ ∀ row ∈ mat, row.length = m.output_dim := by
  have hhead : (trg.headD []).length = batch := by
    rw [headD_eq_getD_zero]
    exact hrows _ (getD_mem_of_lt _ trg 0 hne)
  constructor
  · show (seq2seqForward m src trg tfr draws).outputs.length = trg.length
    rw [seq2seqForward_eq, runSteps_outputs_length]
    simp [zeros3]
  · show ∀ mat ∈ (seq2seqForward m src trg tfr draws).outputs, _
    rw [seq2seqForward_eq]
    refine runSteps_shape m trg tfr _ batch hdec hrows (trg.length - 1) 1 _
      (by omega) hhead ?_
    intro mat hmat
    rw [List.eq_of_mem_replicate hmat, hhead]
    refine ⟨List.length_replicate _ _, ?_⟩
    intro row hrow
    rw [List.eq_of_mem_replicate hrow]
    exact List.length_replicate _ _

theorem generate_shape_witness :
    (0 < ([[0, 0], [1, 1]] : List (List ℕ)).length) ∧
      (∀ r ∈ ([[0, 0], [1, 1]] : List (List ℕ)), r.length = 2) ∧
      ((generate mShape [[0]] [[0, 0], [1, 1]] 1 [0]).length
          = ([[0, 0], [1, 1]] : List (List ℕ)).length ∧
        ∀ mat ∈ generate mShape [[0]] [[0, 0], [1, 1]] 1 [0],
          mat.length = 2 ∧ ∀ row ∈ mat, row.length = mShape.output_dim) :=
  ⟨by decide, by decide,
    generate_shape mShape [[0]] [[0, 0], [1, 1]] 1 [0] 2 (by decide) (by decide)
      (fun _ _ _ =>
        ⟨List.length_replicate _ _,
          fun row hrow => by
            rw [List.eq_of_mem_replicate hrow]
            exact List.length_replicate _ _⟩)⟩

/-- C5: position 0 of the returned tensor is the untouched all-zero
[batch, vocab] slice: the loop only writes positions 1 .. trgLen-1. -/
theorem generate_position_zero {E : Type} (m : Seq2SeqM E) (src trg : List (List ℕ))
    (tfr : ℚ) (draws : List ℚ) (hne : 0 < trg.length) :
    (generate m src trg tfr draws).getD 0 []
      = List.replicate (trg.headD []).length (List.replicate m.output_dim (0 : ℚ)) := by
  show (seq2seqForward m src trg tfr draws).outputs.getD 0 [] = _
  rw [seq2seqForward_eq, runSteps_outputs_stable m trg tfr _ _ 1 0 _ (by omega)]
  exact getD_replicate_of_lt _ _ _ _ hne

theorem generate_position_zero_witness :
    (0 < ([[4], [9]] : List (List ℕ)).length) ∧
      (generate mZero [[0]] [[4], [9]] 0 [0]).getD 0 []
        = List.replicate (([[4], [9]] : List (List ℕ)).headD []).length
            (List.replicate mZero.output_dim (0 : ℚ)) :=
  ⟨by decide, generate_position_zero mZero [[0]] [[4], [9]] 0 [0] (by decide)⟩

/-- C9: `generate` is deterministic — two calls with the same model
(hence the same dropout behaviour inside encoder and decoder), the same
source and target tensors, the same teacher-forcing ratio and the same
stream of random draws return identical output tensors. -/
theorem generate_deterministic {E : Type} (m1 m2 : Seq2SeqM E)
    (src1 src2 trg1 trg2 : List (List ℕ)) (tfr1 tfr2 : ℚ) (draws1 draws2 : List ℚ)
    (hm : m1 = m2) (hsrc : src1 = src2) (htrg : trg1 = trg2)
    (htfr : tfr1 = tfr2) (hdraws : draws1 = draws2) :
    generate m1 src1 trg1 tfr1 draws1 = generate m2 src2 trg2 tfr2 draws2 := by
  subst hm hsrc htrg htfr hdraws
  rfl

theorem generate_deterministic_witness :
    generate mZero [[0]] [[4], [9]] (1/2) [0, 1/3]
      = generate mZero [[0]] [[4], [9]] (1/2) [0, 1/3] :=
  generate_deterministic mZero mZero [[0]] [[0]] [[4], [9]] [[4], [9]]
    (1/2) (1/2) [0, 1/3] [0, 1/3] rfl rfl rfl rfl rfl

/-- C10: with a length-1 target the loop body never runs: the decoder is
never invoked (empty call trace), no random draw is consumed, and the
result is the all-zero [1, batch, vocab] tensor. -/
theorem generate_single_step {E : Type} (m : Seq2SeqM E) (src : List (List ℕ))
    (row : List ℕ) (tfr : ℚ) (draws : List ℚ) :
    generate m src [row] tfr draws
        = [List.replicate row.length (List.replicate m.output_dim (0 : ℚ))] ∧
      (seq2seqForward m src [row] tfr draws).fedIn = [] ∧
      (seq2seqForward m src [row] tfr draws).draws = draws :=
  ⟨rfl, rfl, rfl⟩

/-- When every remaining draw is below the ratio (and the ratio is
positive, covering the exhausted-stream default draw 0), every step is
teacher-forced and the fed-input trace is `fedForced`. -/
theorem runSteps_fedIn_forced {E : Type} (m : Seq2SeqM E) (trg : List (List ℕ))
    (tfr : ℚ) (enc : E) (htfr : 0 < tfr) :
    ∀ (fuel t : ℕ) (s : StepSt E), (∀ d ∈ s.draws, d < tfr) →
      (runSteps m trg tfr enc t fuel s).fedIn
        = s.fedIn ++ fedForced trg s.input t fuel := by
  intro fuel
  induction fuel with
  | zero => intro t s _; rw [runSteps_zero, fedForced]; simp
  | succ fuel ih =>
    intro t s hd
    have hforce : s.draws.headD 0 < tfr := by
      cases hds : s.draws with
      | nil => simpa using htfr
      | cons a l => exact hd a (by rw [hds]; exact List.mem_cons_self a l)
    have htail : ∀ d ∈ (stepOnce m trg tfr enc t s).draws, d < tfr := by
      intro d hdm
      rw [stepOnce_draws] at hdm
      exact hd d (mem_of_mem_tail' hdm)
    rw [runSteps_succ, ih (t + 1) _ htail, stepOnce_fedIn, stepOnce_input,
      if_pos hforce, fedForced, List.append_assoc]
    rfl

/-- Index form of `fedForced`: entry 0 is the starting input, entry `k ≥ 1`
is the ground-truth row `trg[t + k - 1]`. -/
theorem fedForced_getD (trg : List (List ℕ)) :
    ∀ (fuel : ℕ) (input : List ℕ) (t k : ℕ), k < fuel →
      (fedForced trg input t fuel).getD k []
        = if k = 0 then input else trg.getD (t + k - 1) [] := by
  intro fuel
  induction fuel with
  | zero => intro input t k hk; omega
  | succ fuel ih =>
    intro input t k hk
    cases k with
    | zero => rfl
    | succ k =>
      rw [fedForced]
      show (fedForced trg (trg.getD t []) (t + 1) fuel).getD k [] = _
      rw [ih (trg.getD t []) (t + 1) k (by omega)]
      cases k with
      | zero => simp
      | succ k =>
        have h1 : t + 1 + (k + 1) - 1 = t + (k + 1 + 1) - 1 := by omega
        simp [h1]

/-- C3 (amended): with teacherForcingRatio = 1.0, and every random draw in
[0, 1) as `random.random()` guarantees, the token batch fed to the decoder
at step t (t = 1 .. trgLen-1) is the ground-truth row `trg[t-1]` — the row
selected at the end of the previous step — not `trg[t]`. -/
theorem generate_full_teacher_forcing {E : Type} (m : Seq2SeqM E)
    (src trg : List (List ℕ)) (tfr : ℚ) (draws : List ℚ) (t : ℕ)
    (htfr : tfr = 1) (hdraws : ∀ d ∈ draws, d < 1)
    (ht1 : 1 ≤ t) (ht2 : t < trg.length) :
    (seq2seqForward m src trg tfr draws).fedIn.getD (t - 1) []
      = trg.getD (t - 1) [] := by
  subst htfr
  rw [seq2seqForward_eq,
    runSteps_fedIn_forced m trg 1 _ one_pos (trg.length - 1) 1 _ hdraws]
  show (fedForced trg (trg.headD []) 1 (trg.length - 1)).getD (t - 1) [] = _
  rw [fedForced_getD trg (trg.length - 1) (trg.headD []) 1 (t - 1) (by omega)]
  cases ht : t - 1 with
  | zero =>
    rw [if_pos rfl, headD_eq_getD_zero]
  | succ k =>
    rw [if_neg (by omega)]
    have : 1 + (k + 1) - 1 = k + 1 := by omega
    rw [this]

/-- C3 counterexample: with teacherForcingRatio = 1.0, target
[[0], [1]] (trgLen = 2, batch = 1) and the valid draw stream [0], the token
fed to the decoder at step t = 1 is trg[0] = [0], not trg[1] = [1] as the
claim states. -/
theorem generate_full_teacher_forcing_cex :
    (seq2seqForward mForce [[0]] [[0], [1]] 1 [0]).fedIn.getD 0 []
      ≠ ([[0], [1]] : List (List ℕ)).getD 1 [] := by
  decide

theorem generate_full_teacher_forcing_witness :
    ((1 : ℚ) = 1) ∧ (∀ d ∈ ([0] : List ℚ), d < 1) ∧ (1 ≤ 1) ∧
      (1 < ([[0], [1]] : List (List ℕ)).length) ∧
      (seq2seqForward mForce [[0]] [[0], [1]] 1 [0]).fedIn.getD 0 []
        = ([[0], [1]] : List (List ℕ)).getD 0 [] :=
  ⟨rfl, by decide, by decide, by decide,
    generate_full_teacher_forcing mForce [[0]] [[0], [1]] 1 [0] 1 rfl
      (by decide) (by decide) (by decide)⟩

theorem greedy_succ {E : Type} (m : Seq2SeqM E) (enc : E) (fuel : ℕ)
    (input : List ℕ) (hidden : Hid) :
    greedy m enc (fuel + 1) input hidden
      = (input :: (greedy m enc fuel ((m.decoder input hidden enc).1.map argmaxIdx)
            (m.decoder input hidden enc).2).1,
         (m.decoder input hidden enc).1
           :: (greedy m enc fuel ((m.decoder input hidden enc).1.map argmaxIdx)
            (m.decoder input hidden enc).2).2) := rfl

theorem writeSeq_length :
    ∀ (os : List (List (List ℚ))) (outputs : Tensor3) (t : ℕ),
      (writeSeq outputs t os).length = outputs.length := by
  intro os
  induction os with
  | nil => intro outputs t; rfl
  | cons o os ih =>
    intro outputs t
    show (writeSeq (outputs.set t o) (t + 1) os).length = _
    rw [ih, List.length_set]

theorem writeSeq_stable :
    ∀ (os : List (List (List ℚ))) (outputs : Tensor3) (t j : ℕ), j < t →
      (writeSeq outputs t os).getD j [] = outputs.getD j [] := by
  intro os
  induction os with
  | nil => intro outputs t j _; rfl
  | cons o os ih =>
    intro outputs t j hj
    show (writeSeq (outputs.set t o) (t + 1) os).getD j [] = _
    rw [ih _ (t + 1) j (by omega)]
    exact getD_set_ne _ _ _ _ _ (by omega)

theorem writeSeq_getD :
    ∀ (os : List (List (List ℚ))) (outputs : Tensor3) (t j : ℕ),
      t ≤ j → j < t + os.length → j < outputs.length →
      (writeSeq outputs t os).getD j [] = os.getD (j - t) [] := by
  intro os
  induction os with
  | nil => intro outputs t j h1 h2 _; simp at h2; omega
  | cons o os ih =>
    intro outputs t j h1 h2 h3
    show (writeSeq (outputs.set t o) (t + 1) os).getD j [] = _
    by_cases hjt : j = t
    · subst hjt
      rw [writeSeq_stable os _ (j + 1) j (by omega),
        getD_set_self _ _ _ _ h3]
      simp
    · have h1' : t + 1 ≤ j := by omega
      have h2' : j < (t + 1) + os.length := by
        simp at h2
        omega
      have h3' : j < (outputs.set t o).length := by rw [List.length_set]; exact h3
      rw [ih _ (t + 1) j h1' h2' h3']
      have hidx : j - t = (j - (t + 1)) + 1 := by omega
      rw [hidx]
      rfl

theorem greedy_lengths {E : Type} (m : Seq2SeqM E) (enc : E) :
    ∀ (fuel : ℕ) (input : List ℕ) (hidden : Hid),
      (greedy m enc fuel input hidden).1.length = fuel ∧
        (greedy m enc fuel input hidden).2.length = fuel := by
  intro fuel
  induction fuel with
  | zero => intro input hidden; exact ⟨rfl, rfl⟩
  | succ fuel ih =>
    intro input hidden
    rw [greedy_succ]
    constructor
    · show (_ :: _).length = _
      rw [List.length_cons, (ih _ _).1]
    · show (_ :: _).length = _
      rw [List.length_cons, (ih _ _).2]

theorem greedy_fed_zero {E : Type} (m : Seq2SeqM E) (enc : E) (fuel : ℕ)
    (input : List ℕ) (hidden : Hid) (h : 1 ≤ fuel) :
    (greedy m enc fuel input hidden).1.getD 0 [] = input := by
  cases fuel with
  | zero => omega
  | succ fuel =>
    rw [greedy_succ]
    rfl

/-- In a greedy chain, the input fed at link k+1 is the argmax row of the
scores produced at link k. -/
theorem greedy_chain {E : Type} (m : Seq2SeqM E) (enc : E) :
    ∀ (fuel : ℕ) (input : List ℕ) (hidden : Hid) (k : ℕ), k + 1 < fuel →
      (greedy m enc fuel input hidden).1.getD (k + 1) []
        = ((greedy m enc fuel input hidden).2.getD k []).map argmaxIdx := by
  intro fuel
  induction fuel with
  | zero => intro input hidden k hk; omega
  | succ fuel ih =>
    intro input hidden k hk
    rw [greedy_succ]
    cases k with
    | zero =>
      show (greedy m enc fuel _ _).1.getD 0 [] = _
      rw [greedy_fed_zero m enc fuel _ _ (by omega)]
      rfl
    | succ k =>
      show (greedy m enc fuel _ _).1.getD (k + 1) [] = _
      rw [ih _ _ k (by omega)]
      rfl

/-- With a nonpositive ratio and nonnegative draws (as `random.random()`
guarantees), no step is teacher-forced: the fed-input trace is the greedy
chain and the outputs tensor holds the chain's scores from position `t`. -/
theorem runSteps_greedy {E : Type} (m : Seq2SeqM E) (trg : List (List ℕ))
    (tfr : ℚ) (enc : E) (htfr : tfr ≤ 0) :
    ∀ (fuel t : ℕ) (s : StepSt E), (∀ d ∈ s.draws, 0 ≤ d) →
      (runSteps m trg tfr enc t fuel s).fedIn
          = s.fedIn ++ (greedy m enc fuel s.input s.hidden).1 ∧
        (runSteps m trg tfr enc t fuel s).outputs
          = writeSeq s.outputs t (greedy m enc fuel s.input s.hidden).2 := by
  intro fuel
  induction fuel with
  | zero => intro t s _; rw [runSteps_zero]; exact ⟨by simp [greedy], rfl⟩
  | succ fuel ih =>
    intro t s hd
    have hnof : ¬ s.draws.headD 0 < tfr := by
      cases hds : s.draws with
      | nil =>
        simp only [List.headD_nil]
        exact fun hlt => absurd (lt_of_lt_of_le hlt htfr) (lt_irrefl 0)
      | cons a l =>
        have ha : 0 ≤ a := hd a (by rw [hds]; exact List.mem_cons_self a l)
        exact fun hlt => absurd (lt_of_lt_of_le hlt htfr) (not_lt.mpr ha)
    have htail : ∀ d ∈ (stepOnce m trg tfr enc t s).draws, 0 ≤ d := by
      intro d hdm
      rw [stepOnce_draws] at hdm
      exact hd d (mem_of_mem_tail' hdm)
    obtain ⟨ihf, iho⟩ := ih (t + 1) (stepOnce m trg tfr enc t s) htail
    constructor
    · rw [runSteps_succ, ihf, stepOnce_fedIn, stepOnce_input, if_neg hnof,
        stepOnce_hidden, greedy_succ, List.append_assoc]
      rfl
    · rw [runSteps_succ, iho, stepOnce_outputs, stepOnce_input, if_neg hnof,
        stepOnce_hidden, greedy_succ]
      rfl

/-- C4: with teacherForcingRatio = 0.0 and every random draw nonnegative
(as `random.random()` guarantees), the token batch fed to the decoder at
step t (2 ≤ t ≤ trgLen-1) is the argmax, over the vocabulary axis, of the
scores the decoder produced at step t-1 (stored at position t-1 of the
returned tensor), and the input fed at step 1 is `trg[0]`. -/
theorem generate_greedy_feeding {E : Type} (m : Seq2SeqM E)
    (src trg : List (List ℕ)) (tfr : ℚ) (draws : List ℚ) (t : ℕ)
    (htfr : tfr = 0) (hdraws : ∀ d ∈ draws, 0 ≤ d)
    (ht2 : 2 ≤ t) (htl : t < trg.length) :
    (seq2seqForward m src trg tfr draws).fedIn.getD (t - 1) []
        = ((seq2seqForward m src trg tfr draws).outputs.getD (t - 1) []).map argmaxIdx ∧
      (seq2seqForward m src trg tfr draws).fedIn.getD 0 [] = trg.headD [] := by
  subst htfr
  rw [seq2seqForward_eq]
  obtain ⟨hfed, hout⟩ :=
    runSteps_greedy m trg 0 (m.encoder src).1 le_rfl (trg.length - 1) 1
      { outputs := zeros3 trg.length (trg.headD []).length m.output_dim
        input := trg.headD []
        hidden := initDecoderHidden (m.encoder src).2.1
        draws := draws
        fedIn := []
        fedHid := [] } hdraws
  rw [hfed, hout]
  simp only [List.nil_append]
  constructor
  · have hidx : t - 1 = (t - 2) + 1 := by omega
    rw [hidx, greedy_chain m _ (trg.length - 1) _ _ (t - 2) (by omega)]
    have hlen2 := (greedy_lengths m (m.encoder src).1 (trg.length - 1)
      (trg.headD []) (initDecoderHidden (m.encoder src).2.1)).2
    rw [writeSeq_getD _ _ 1 ((t - 2) + 1) (by omega)
      (by rw [hlen2]; omega)
      (by simp [zeros3]; omega)]
    have hidx2 : (t - 2) + 1 - 1 = t - 2 := by omega
    rw [hidx2]
  · exact greedy_fed_zero m _ (trg.length - 1) _ _ (by omega)

theorem generate_greedy_feeding_witness :
    ((0 : ℚ) = 0) ∧ (∀ d ∈ ([0, 0] : List ℚ), 0 ≤ d) ∧ (2 ≤ 2) ∧
      (2 < ([[0], [0], [0]] : List (List ℕ)).length) ∧
      ((seq2seqForward mGreedy [[0]] [[0], [0], [0]] 0 [0, 0]).fedIn.getD 1 []
          = ((seq2seqForward mGreedy [[0]] [[0], [0], [0]] 0 [0, 0]).outputs.getD 1 []).map
              argmaxIdx ∧
        (seq2seqForward mGreedy [[0]] [[0], [0], [0]] 0 [0, 0]).fedIn.getD 0 []
          = ([[0], [0], [0]] : List (List ℕ)).headD []) :=
  ⟨rfl, by decide, by decide, by decide,
    generate_greedy_feeding mGreedy [[0]] [[0], [0], [0]] 0 [0, 0] 2 rfl
      (by decide) (by decide) (by decide)⟩

/-- C6 (amended): whenever the loop runs at least once, the hidden state
received by the first decoder invocation is exactly
`hidden[-1].unsqueeze(0)`: the single last slice of the encoder hidden
stack — for a bidirectional encoder only its final direction, not both. -/
theorem generate_init_hidden {E : Type} (m : Seq2SeqM E) (src trg : List (List ℕ))
    (tfr : ℚ) (draws : List ℚ) (h2 : 2 ≤ trg.length) :
    (seq2seqForward m src trg tfr draws).fedHid.getD 0 []
      = [((m.encoder src).2.1).getLastD []] := by
  rw [seq2seqForward_eq]
  exact (runSteps_first_call m trg tfr (m.encoder src).1 (trg.length - 1) 1 _
    (by omega) rfl rfl).2

/-- C6 counterexample: for the bidirectional stack [[[1]], [[2]]] the
hidden state actually handed to the first decoder call is [[[2]]] (the
final direction only), not the both-directions state [[[1, 2]]] that the
claim describes. -/
theorem generate_init_hidden_cex :
    (seq2seqForward mBidir [[0]] [[0], [0]] 0 [0]).fedHid.getD 0 []
      ≠ initDecoderHiddenSpec true [[[1]], [[2]]] := by
  decide

theorem generate_init_hidden_witness :
    (2 ≤ ([[0], [0]] : List (List ℕ)).length) ∧
      (seq2seqForward mBidir [[0]] [[0], [0]] 0 [0]).fedHid.getD 0 []
        = [((mBidir.encoder [[0]]).2.1).getLastD []] :=
  ⟨by decide, generate_init_hidden mBidir [[0]] [[0], [0]] 0 [0] (by decide)⟩

/-- C8 evaluation: with mismatched dimensions (effective encoder hidden
dim 4, decoder hidden dim 8) the source constructor still succeeds — the
assertion the claim relies on is commented out — while the spec-mandated
checked constructor rejects the same pair. -/
theorem seq2seq_init_no_check :
    Seq2Seq.init encBad decBad = Except.ok (encBad, decBad) ∧
      effectiveEncHiddenDim encBad ≠ decBad.dec_hid_dim ∧
      Seq2Seq.initChecked encBad decBad
        = Except.error "Hidden dimensions of encoder and decoder must be equal!" :=
  ⟨rfl, by decide, rfl⟩

/-- C2: for every attention configuration, every decoder hidden state and
every non-empty encoder output sequence, the attention weights sum to
exactly 1 over the source-position axis, for each batch element. -/
theorem attention_weights_sum_one (A : AttentionP) (srcLen : ℕ)
    (hidden enc : RTensor) (b k : ℕ) (h : 0 < srcLen) :
    Finset.sum (Finset.range srcLen)
        (fun s => Attention.forward A srcLen hidden enc s b k) = 1 := by
  have hpos : 0 < Finset.sum (Finset.range srcLen)
      (fun s2 => Real.exp (vEnergy A hidden enc s2 b k / 10)) :=
    Finset.sum_pos (fun i _ => Real.exp_pos _)
      (Finset.nonempty_range_iff.mpr (by omega))
  show Finset.sum (Finset.range srcLen)
      (fun s => Real.exp (vEnergy A hidden enc s b k / 10) /
        Finset.sum (Finset.range srcLen)
          (fun s2 => Real.exp (vEnergy A hidden enc s2 b k / 10))) = 1
  rw [← Finset.sum_div]
  exact div_self (ne_of_gt hpos)

theorem attention_weights_sum_one_witness :
    (0 < 3) ∧
      Finset.sum (Finset.range 3)
        (fun s => Attention.forward attnW1 3 (fun _ _ _ => 0) (fun _ _ _ => 0) s 0 0) = 1 :=
  ⟨by decide,
    attention_weights_sum_one attnW1 3 (fun _ _ _ => 0) (fun _ _ _ => 0) 0 0 (by decide)⟩

/-- C7 (amended): the temperature is not configurable at construction —
`Attention.forward` always invokes `softmax` with its call-site default,
so the weights are exp(energy/10) normalized over source positions, and
the forward pass coincides with the spec-style temperature-parameterized
pass only at T = 10. -/
theorem attention_temperature_always_ten (A : AttentionP) (srcLen : ℕ)
    (hidden enc : RTensor) (s b k : ℕ) :
    Attention.forward A srcLen hidden enc s b k
        = Real.exp (vEnergy A hidden enc s b k / 10) /
          Finset.sum (Finset.range srcLen)
            (fun s2 => Real.exp (vEnergy A hidden enc s2 b k / 10)) ∧
      Attention.forward A srcLen hidden enc s b k
        = Attention.forwardWithTemp A srcLen hidden enc 10 s b k :=
  ⟨rfl, rfl⟩

theorem vEnergy_cex_zero : vEnergy attnCex hidCex encCex 0 0 0 = 0 := by
  show Finset.sum (Finset.range attnCex.enc_hid_dim)
      (fun j => attnCex.vW j * energy attnCex hidCex encCex 0 0 j) + attnCex.vB = 0
  have he : energy attnCex hidCex encCex 0 0 0 = 0 := by
    show Real.tanh
        (Finset.sum (Finset.range (encDirs attnCex + attnCex.dec_hid_dim))
            (fun i => attnCex.attnW 0 i * conc attnCex hidCex encCex 0 0 i)
          + attnCex.attnB 0) = 0
    have hd : encDirs attnCex + attnCex.dec_hid_dim = 1 := rfl
    rw [hd, Finset.sum_range_one]
    show Real.tanh (1 * conc attnCex hidCex encCex 0 0 0 + 0) = 0
    have hc : conc attnCex hidCex encCex 0 0 0 = 0 := by
      show (if 0 < encDirs attnCex then encCex 0 0 0 else hidCex 0 0 (0 - encDirs attnCex)) = 0
      rw [if_pos (by decide)]
      rfl
    rw [hc]
    norm_num [Real.tanh_zero]
  show Finset.sum (Finset.range 1)
      (fun j => attnCex.vW j * energy attnCex hidCex encCex 0 0 j) + attnCex.vB = 0
  rw [Finset.sum_range_one]
  show 1 * energy attnCex hidCex encCex 0 0 0 + 0 = 0
  rw [he]
  norm_num

theorem vEnergy_cex_one : vEnergy attnCex hidCex encCex 1 0 0 = Real.tanh 1 := by
  have he : energy attnCex hidCex encCex 1 0 0 = Real.tanh 1 := by
    show Real.tanh
        (Finset.sum (Finset.range (encDirs attnCex + attnCex.dec_hid_dim))
            (fun i => attnCex.attnW 0 i * conc attnCex hidCex encCex 1 0 i)
          + attnCex.attnB 0) = Real.tanh 1
    have hd : encDirs attnCex + attnCex.dec_hid_dim = 1 := rfl
    rw [hd, Finset.sum_range_one]
    show Real.tanh (1 * conc attnCex hidCex encCex 1 0 0 + 0) = Real.tanh 1
    have hc : conc attnCex hidCex encCex 1 0 0 = 1 := by
      show (if 0 < encDirs attnCex then encCex 1 0 0 else hidCex 0 0 (0 - encDirs attnCex)) = 1
      rw [if_pos (by decide)]
      rfl
    rw [hc]
    norm_num
  show Finset.sum (Finset.range 1)
      (fun j => attnCex.vW j * energy attnCex hidCex encCex 1 0 j) + attnCex.vB = Real.tanh 1
  rw [Finset.sum_range_one]
  show 1 * energy attnCex hidCex encCex 1 0 0 + 0 = Real.tanh 1
  rw [he]
  norm_num

/-- C7 counterexample: no construction-supplied temperature is honoured —
for this concrete configuration and input, the weights the module computes
differ from the spec's temperature-T softmax at the construction-supplied
temperature T = 5, because the module always uses 10. -/
theorem attention_construction_temperature_cex :
    Attention.forwardWithTemp attnCex 2 hidCex encCex 5 0 0 0
      ≠ Attention.forward attnCex 2 hidCex encCex 0 0 0 := by
  have ht : (0 : ℝ) < Real.tanh 1 := by
    rw [Real.tanh_eq_sinh_div_cosh]
    exact div_pos (Real.sinh_pos_iff.mpr one_pos) (Real.cosh_pos 1)
  have hL : Attention.forwardWithTemp attnCex 2 hidCex encCex 5 0 0 0
      = 1 / (1 + Real.exp (Real.tanh 1 / 5)) := by
    show Real.exp (vEnergy attnCex hidCex encCex 0 0 0 / 5) /
        Finset.sum (Finset.range 2)
          (fun s2 => Real.exp (vEnergy attnCex hidCex encCex s2 0 0 / 5))
      = 1 / (1 + Real.exp (Real.tanh 1 / 5))
    rw [Finset.sum_range_succ, Finset.sum_range_one, vEnergy_cex_zero, vEnergy_cex_one]
    norm_num
  have hR : Attention.forward attnCex 2 hidCex encCex 0 0 0
      = 1 / (1 + Real.exp (Real.tanh 1 / 10)) := by
    show Real.exp (vEnergy attnCex hidCex encCex 0 0 0 / 10) /
        Finset.sum (Finset.range 2)
          (fun s2 => Real.exp (vEnergy attnCex hidCex encCex s2 0 0 / 10))
      = 1 / (1 + Real.exp (Real.tanh 1 / 10))
    rw [Finset.sum_range_succ, Finset.sum_range_one, vEnergy_cex_zero, vEnergy_cex_one]
    norm_num
  rw [hL, hR]
  have hexp : Real.exp (Real.tanh 1 / 10) < Real.exp (Real.tanh 1 / 5) :=
    Real.exp_lt_exp.mpr (by linarith)
  have hpos : (0 : ℝ) < 1 + Real.exp (Real.tanh 1 / 10) := by positivity
  exact ne_of_lt (one_div_lt_one_div_of_lt hpos (by linarith))
